import Mathlib

/-!
Verification of the corto `util` base layer (`src/util/include/util.h`) against its
natural-language specification.

The repository ships only the platform header `util.h`: it declares the configuration
constants (`UT_MAX_THREADS`, `UT_MAX_OLS_KEY`, `UT_MAX_THREAD_KEY`, `HEIGHT_LIMIT`), the
collection handle types (`ut_rb`, `ut_ll`, `ut_iter`) and the red-black traversal state
`jsw_rbtrav` (tree pointer, current node, `path[HEIGHT_LIMIT]`, stack top, and an
`int32_t changes` snapshot of the tree's modification counter).  The implementations of
the red-black tree (`jsw_rbtree.c`), the linked list (`ll.c`) and the object/thread slot
registries (OLS/TLS) are not part of the source tree, so those operations are modelled
from the specification; the constants and struct layout facts come from the header
itself.

The ordered-tree model is built on `Batteries.RBNode`, the textbook functional
red-black tree (insert by rotation/recoloring, remove with rebalancing), matching the
spec's description of the tree engine.
-/

open Batteries (RBNode RBColor)
open Batteries.RBNode (setBlack isBlack Ordered Balanced cmpLT)

set_option maxHeartbeats 1000000

/-- Error taxonomy of the spec (section 7): every failure is an explicit result. -/
inductive UtError where
  | capacityExceeded
  | notFound
  | invalidArgument
  | duplicateKey
  | iteratorInvalidated
  deriving DecidableEq, Repr

/-- Maximum number of threads that can use the corto API simultaneously
(`#define UT_MAX_THREADS (64)`, util.h line 120). -/
def UT_MAX_THREADS : Nat := 64

/-- Maximum number of OLS (object-local storage) keys supported by the core
(`#define UT_MAX_OLS_KEY (256)`, util.h line 139). -/
def UT_MAX_OLS_KEY : Nat := 256

/-- Maximum number of TLS keys supported by the core
(`#define UT_MAX_THREAD_KEY (256)`, util.h line 142). -/
def UT_MAX_THREAD_KEY : Nat := 256

/-- Height limit of the red-black traversal path stack
(`#define HEIGHT_LIMIT (24)`, util.h line 260). -/
def HEIGHT_LIMIT : Nat := 24

/-- Modelled from the spec: a slot registry (section 4.4) is a fixed-size array of slot
entries; a used entry holds the registered destructor.  The OLS/TLS implementation files
are absent from `src/`, only the capacity macros appear in `util.h`. -/
structure ut_ols (δ : Type) where
  slots : List (Option δ)
  deriving Repr

/-- Modelled from the spec: constructing a registry with `cap` slot entries, all free. -/
def ut_olsNew (δ : Type) (cap : Nat) : ut_ols δ :=
  ⟨List.replicate cap none⟩

/-- Index of the first free slot entry, if any (the free/used bitmap scan). -/
def firstFreeSlot {δ : Type} : List (Option δ) → Option Nat
  | [] => none
  | none :: _ => some 0
  | some _ :: rest => (firstFreeSlot rest).map (· + 1)

/-- Modelled from the spec: `registerKey(destructor)` returns a fresh integer key or
fails `CapacityExceeded` once the configured maximum key count is reached.  The
implementation is absent from `src/`. -/
def ut_olsRegister {δ : Type} (r : ut_ols δ) (d : δ) : Except UtError (Nat × ut_ols δ) :=
  match firstFreeSlot r.slots with
  | some i => .ok (i, ⟨r.slots.set i (some d)⟩)
  | none => .error .capacityExceeded

/-- Repeated registration: perform `n` `registerKey` calls, collecting the keys. -/
def ut_olsRegisterN {δ : Type} (d : δ) : Nat → ut_ols δ → Except UtError (List Nat × ut_ols δ)
  | 0, r => .ok ([], r)
  | n + 1, r =>
    match ut_olsRegister r d with
    | .error e => .error e
    | .ok (k, r') =>
      match ut_olsRegisterN d n r' with
      | .error e => .error e
      | .ok (ks, r'') => .ok (k :: ks, r'')

/-- The object-scoped registry variant, capacity `UT_MAX_OLS_KEY`. -/
def ut_olsNewDefault (δ : Type) : ut_ols δ :=
  ut_olsNew δ UT_MAX_OLS_KEY

/-- The thread-scoped registry variant, capacity `UT_MAX_THREAD_KEY` (same design,
independently bounded, per spec section 4.4). -/
def ut_tlsNewDefault (δ : Type) : ut_ols δ :=
  ut_olsNew δ UT_MAX_THREAD_KEY

/-- Modelled from the spec: the thread-scoped variant maps owner identities (stable small
thread ids) to values, with at most `UT_MAX_THREADS` concurrent threads; the per-key
owner table therefore has `UT_MAX_THREADS` entries. -/
def ut_tlsNewOwnerTable (V : Type) : List (Option V) :=
  List.replicate UT_MAX_THREADS none

/-- A thread id is valid when it is below the configured maximum concurrent-thread
count. -/
def ut_threadIdValid (tid : Nat) : Prop :=
  tid < UT_MAX_THREADS

/-! ### Ordered tree engine model -/

/-- Modelled from the spec: the ordered tree engine (`jsw_rbtree.c` is absent from
`src/`; `util.h` only declares the handle types `jsw_rbtree_t`/`jsw_rbnode_t`).  A tree
owns its root node, an element count, a monotonically increasing modification counter,
and the configured duplicate policy (replace vs. reject).  Elements of type `α` carry
key and value together and are ordered by the caller-supplied comparator `cmp`, exactly
as the C code orders `void*` elements through its comparator callback.  The node-level
engine is `Batteries.RBNode`, the standard functional red-black tree. -/
structure jsw_rbtree (α : Type) (cmp : α → α → Ordering) where
  root : RBNode α
  cnt : Nat
  changes : Nat
  dupReplace : Bool

/-- Modelled from the spec: constructing an empty tree with the given duplicate
policy. -/
def jsw_rbnew (α : Type) (cmp : α → α → Ordering) (dupReplace : Bool) : jsw_rbtree α cmp :=
  ⟨.nil, 0, 0, dupReplace⟩

/-- Modelled from the spec: `find(key)` returns the stored element or the defined
"absent" result (`none`); it never mutates. -/
def jsw_rbtree.find? {α : Type} {cmp : α → α → Ordering} (t : jsw_rbtree α cmp) (k : α) :
    Option α :=
  t.root.find? (cmp k)

/-- Modelled from the spec: `size()` is the O(1) element count. -/
def jsw_rbtree.size {α : Type} {cmp : α → α → Ordering} (t : jsw_rbtree α cmp) : Nat :=
  t.cnt

/-- Modelled from the spec: `insert(key, value)` succeeds, or fails `DuplicateKey` /
replaces the existing element per the configured duplicate policy; it rebalances by
rotation/recoloring (the root is recolored black) and bumps the modification counter on
any structural change. -/
def jsw_rbtree.insert {α : Type} {cmp : α → α → Ordering} (t : jsw_rbtree α cmp) (v : α) :
    Except UtError (jsw_rbtree α cmp) :=
  match t.root.find? (cmp v) with
  | some _ =>
    if t.dupReplace then
      .ok ⟨(t.root.insert cmp v).setBlack, t.cnt, t.changes + 1, t.dupReplace⟩
    else
      .error .duplicateKey
  | none => .ok ⟨(t.root.insert cmp v).setBlack, t.cnt + 1, t.changes + 1, t.dupReplace⟩

/-- Modelled from the spec: `remove(key)` succeeds and rebalances, or fails `NotFound`
when no matching key exists; it bumps the modification counter on success. -/
def jsw_rbtree.remove {α : Type} {cmp : α → α → Ordering} (t : jsw_rbtree α cmp) (k : α) :
    Except UtError (jsw_rbtree α cmp) :=
  match t.root.find? (cmp k) with
  | none => .error .notFound
  | some _ => .ok ⟨t.root.erase (cmp k), t.cnt - 1, t.changes + 1, t.dupReplace⟩

/-- A mutation request against the tree: insert an element or remove a key. -/
inductive TreeOp (α : Type) where
  | insert (v : α)
  | remove (k : α)

/-- Apply one operation; a failed operation (`DuplicateKey`, `NotFound`) leaves the tree
unchanged, as the spec requires (no partial state change). -/
def applyOp {α : Type} {cmp : α → α → Ordering} (t : jsw_rbtree α cmp) :
    TreeOp α → jsw_rbtree α cmp
  | .insert v =>
    match t.insert v with
    | .ok t' => t'
    | .error _ => t
  | .remove k =>
    match t.remove k with
    | .ok t' => t'
    | .error _ => t

/-- Apply a sequence of insert/remove operations from left to right. -/
def applyOps {α : Type} {cmp : α → α → Ordering} (t : jsw_rbtree α cmp) :
    List (TreeOp α) → jsw_rbtree α cmp
  | [] => t
  | op :: ops => applyOps (applyOp t op) ops

/-- Checks that the node at the root of a subtree is not red (an empty subtree counts as
black). -/
def rootBlack {α : Type} : RBNode α → Bool
  | .nil => true
  | .node .black .. => true
  | .node .red .. => false

/-- Checks that no red node has a red child. -/
def noRedRed {α : Type} : RBNode α → Bool
  | .nil => true
  | .node .black a _ b => noRedRed a && noRedRed b
  | .node .red a _ b => rootBlack a && rootBlack b && noRedRed a && noRedRed b

/-- Computes the common black-height of all root-to-leaf paths, or `none` if two paths
disagree. -/
def blackHeight? {α : Type} : RBNode α → Option Nat
  | .nil => some 0
  | .node c a _ b =>
    match blackHeight? a, blackHeight? b with
    | some m, some n =>
      if m = n then
        some (match c with | .black => n + 1 | .red => n)
      else none
    | _, _ => none

/-- The four red-black invariants stated by the spec: black root, no red-red edge, equal
black-height on every root-to-leaf path, and in-order keys strictly ordered by the
comparator. -/
def rbInvariants {α : Type} {cmp : α → α → Ordering} (t : jsw_rbtree α cmp) : Prop :=
  rootBlack t.root = true
  ∧ noRedRed t.root = true
  ∧ (blackHeight? t.root).isSome = true
  ∧ t.root.toList.Pairwise (fun a b => cmp a b = .lt)

/-- Structural well-formedness carried through every mutation: the root is ordered and
balanced with a black root. -/
def TreeWF {α : Type} {cmp : α → α → Ordering} (t : jsw_rbtree α cmp) : Prop :=
  Ordered cmp t.root ∧ ∃ n, Balanced t.root .black n

/-! ### Tree traversal cursors (`jsw_rbtrav`, util.h lines 267-273) -/

deriving instance DecidableEq for Batteries.RBColor

deriving instance DecidableEq for Batteries.RBNode

deriving instance DecidableEq for Except

deriving instance DecidableEq for jsw_rbtree

/-- Modulus of an `int32_t` field: comparisons of stored 32-bit counters are effectively
modulo `2^32`. -/
def UINT32_MOD : Nat := 4294967296

/-- The traversal state declared in `util.h`: the paired tree (passed explicitly to the
functional operations), the current node, the bounded traversal path (at most
`HEIGHT_LIMIT` entries), and the `int32_t changes` snapshot of the tree's modification
counter.  Each path entry records the ancestor node together with the direction taken
(`true` = we descended into the right child), which is what the C code recovers by
comparing child pointers. -/
structure jsw_rbtrav (α : Type) where
  it : Option (RBNode α)
  path : List (RBNode α × Bool)
  changes : Nat
  deriving DecidableEq

/-- The staleness check: the cursor's cached `int32_t` snapshot differs from the low 32
bits of the tree's live modification counter. -/
def rbIterChanged {α : Type} {cmp : α → α → Ordering} (trav : jsw_rbtrav α)
    (t : jsw_rbtree α cmp) : Bool :=
  trav.changes != t.changes % UINT32_MOD

/-- Modelled from the spec: descend to the leftmost node of a subtree, pushing each
passed node on the bounded path stack; a push past `HEIGHT_LIMIT` entries fails
`CapacityExceeded` with no partial state change (`jsw_rbtree.c` is absent from
`src/`). -/
def descendLeft {α : Type} : RBNode α → List (RBNode α × Bool) →
    Except UtError (RBNode α × List (RBNode α × Bool))
  | .nil, _ => .error .invalidArgument
  | .node c .nil x b, path => .ok (.node c .nil x b, path)
  | .node c (.node c' a' x' b') x b, path =>
    if path.length < HEIGHT_LIMIT then
      descendLeft (.node c' a' x' b')
        ((.node c (.node c' a' x' b') x b, false) :: path)
    else .error .capacityExceeded

/-- Position a fresh cursor (with counter snapshot `snap`) at the leftmost node of the
root subtree. -/
def rbtfirst_aux {α : Type} (snap : Nat) : RBNode α → Except UtError (jsw_rbtrav α)
  | .nil => .ok ⟨none, [], snap⟩
  | .node c a x b =>
    match descendLeft (.node c a x b) [] with
    | .ok (cur, path) => .ok ⟨some cur, path, snap⟩
    | .error e => .error e

/-- Modelled from the spec: create a cursor positioned at the in-order-first element,
snapshotting the tree's modification counter into the cursor's 32-bit field. -/
def jsw_rbtfirst {α : Type} {cmp : α → α → Ordering} (t : jsw_rbtree α cmp) :
    Except UtError (jsw_rbtrav α) :=
  rbtfirst_aux (t.changes % UINT32_MOD) t.root

/-- Pop the path stack until we reach an ancestor that was entered through its left
child; that ancestor is the in-order successor (`none` when the stack empties). -/
def popUp {α : Type} : List (RBNode α × Bool) →
    Option (RBNode α) × List (RBNode α × Bool)
  | [] => (none, [])
  | (_, true) :: rest => popUp rest
  | (p, false) :: rest => (some p, rest)

/-- Advance the walk state from the current node: go to the leftmost node of the right
subtree (pushing), or pop up to the first left-ancestor. -/
def jsw_rbtnext_state {α : Type} : RBNode α → List (RBNode α × Bool) →
    Except UtError (Option (RBNode α) × List (RBNode α × Bool))
  | .nil, _ => .error .invalidArgument
  | .node _ _ _ .nil, path => .ok (popUp path)
  | .node c a x (.node rc ra rx rb), path =>
    if path.length < HEIGHT_LIMIT then
      match descendLeft (.node rc ra rx rb)
          ((.node c a x (.node rc ra rx rb), true) :: path) with
      | .ok (cur', path') => .ok (some cur', path')
      | .error e => .error e
    else .error .capacityExceeded

/-- Modelled from the spec: the advance-and-return cursor operation.  It first compares
the cursor's cached modification counter to the tree's live counter and fails
`IteratorInvalidated` on a mismatch; otherwise it returns the current element (or
`none` when the walk is exhausted) and the advanced cursor. -/
def jsw_rbtnext {α : Type} {cmp : α → α → Ordering} (t : jsw_rbtree α cmp)
    (trav : jsw_rbtrav α) : Except UtError (Option α × jsw_rbtrav α) :=
  if rbIterChanged trav t then .error .iteratorInvalidated
  else
    match trav.it with
    | none => .ok (none, trav)
    | some cur =>
      match cur with
      | .nil => .error .invalidArgument
      | .node _ _ x _ =>
        match jsw_rbtnext_state cur trav.path with
        | .ok (it', path') => .ok (some x, ⟨it', path', trav.changes⟩)
        | .error e => .error e

/-- Modelled from the spec: the peek-without-advance cursor operation; it performs the
same staleness check first. -/
def rbIterHasNext {α : Type} {cmp : α → α → Ordering} (t : jsw_rbtree α cmp)
    (trav : jsw_rbtrav α) : Except UtError Bool :=
  if rbIterChanged trav t then .error .iteratorInvalidated
  else .ok trav.it.isSome

/-- Modelled from the spec: the advance-and-return-address cursor operation; in this
value-level model the element stands for its storage address.  It performs the same
staleness check first. -/
def rbIterNextPtr {α : Type} {cmp : α → α → Ordering} (t : jsw_rbtree α cmp)
    (trav : jsw_rbtrav α) : Except UtError (Option α × jsw_rbtrav α) :=
  if rbIterChanged trav t then .error .iteratorInvalidated
  else jsw_rbtnext t trav

/-- Run `k` advance operations, keeping only the final cursor state. -/
def rbTravSteps {α : Type} {cmp : α → α → Ordering} (t : jsw_rbtree α cmp) :
    Nat → jsw_rbtrav α → Except UtError (jsw_rbtrav α)
  | 0, trav => .ok trav
  | k + 1, trav =>
    match jsw_rbtnext t trav with
    | .error e => .error e
    | .ok (_, trav') => rbTravSteps t k trav'

/-- Collect the elements produced by repeatedly advancing, with fuel. -/
def rbTravCollect {α : Type} {cmp : α → α → Ordering} (t : jsw_rbtree α cmp) :
    Nat → jsw_rbtrav α → Except UtError (List α)
  | 0, _ => .ok []
  | fuel + 1, trav =>
    match jsw_rbtnext t trav with
    | .error e => .error e
    | .ok (none, _) => .ok []
    | .ok (some x, trav') =>
      match rbTravCollect t fuel trav' with
      | .error e => .error e
      | .ok xs => .ok (x :: xs)

/-- A full in-order traversal through the cursor protocol: create a cursor and drain
it. -/
def rbTravAll {α : Type} {cmp : α → α → Ordering} (t : jsw_rbtree α cmp) :
    Except UtError (List α) :=
  match jsw_rbtfirst t with
  | .error e => .error e
  | .ok trav => rbTravCollect t (t.cnt + 1) trav

/-- Height of a subtree (number of nodes on a longest root-to-leaf path). -/
def height {α : Type} : RBNode α → Nat
  | .nil => 0
  | .node _ a _ b => max (height a) (height b) + 1

/-- The path stack is a chain of ancestors: `AncPath t p s` says that following the
recorded directions from the root `t` along the entries of `p` (reversed) reaches the
subtree `s`. -/
inductive AncPath {α : Type} (t : RBNode α) :
    List (RBNode α × Bool) → RBNode α → Prop where
  | root : AncPath t [] t
  | left {p : List (RBNode α × Bool)} {c : RBColor} {a : RBNode α} {x : α} {b : RBNode α} :
      AncPath t p (.node c a x b) → AncPath t ((.node c a x b, false) :: p) a
  | right {p : List (RBNode α × Bool)} {c : RBColor} {a : RBNode α} {x : α} {b : RBNode α} :
      AncPath t p (.node c a x b) → AncPath t ((.node c a x b, true) :: p) b

/-- Invariant of a live cursor: the snapshot matches the tree's counter and the current
node sits at the end of the recorded ancestor chain. -/
def TravInv {α : Type} {cmp : α → α → Ordering} (t : jsw_rbtree α cmp)
    (trav : jsw_rbtrav α) : Prop :=
  trav.changes = t.changes % UINT32_MOD
  ∧ match trav.it with
    | none => True
    | some s => s ≠ .nil ∧ AncPath t.root trav.path s

/-- Complete all-black tree with black-height `k` and in-order keys starting at `lo`. -/
def fullTree : Nat → Nat → RBNode Nat
  | 0, _ => .nil
  | k + 1, lo =>
    .node .black (fullTree k lo) (lo + (2 ^ k - 1)) (fullTree k (lo + 2 ^ k))

/-- A valid red-black tree with black-height `k` whose left spine alternates black and
red, so its leftmost node sits at depth `2k - 1`; it has `2^(k+1) - 2` nodes. -/
def spineTree : Nat → Nat → RBNode Nat
  | 0, _ => .nil
  | k + 1, lo =>
    .node .black
      (.node .red (spineTree k lo) (lo + (2 ^ (k + 1) - 2))
        (fullTree k (lo + (2 ^ (k + 1) - 1))))
      (lo + (2 ^ (k + 1) - 2) + 2 ^ k)
      (fullTree k (lo + (2 ^ (k + 1) - 2) + 2 ^ k + 1))

/-- A concrete red-black tree with 16382 nodes (far below 16M) whose leftmost node is
25 levels deep, exceeding the 24-entry path stack. -/
def cexTree : jsw_rbtree Nat compare :=
  ⟨spineTree 13 0, 16382, 0, true⟩

/-- Insert a list of elements left to right, propagating the first failure. -/
def insertAllE {α : Type} {cmp : α → α → Ordering} (t : jsw_rbtree α cmp) :
    List α → Except UtError (jsw_rbtree α cmp)
  | [] => .ok t
  | k :: ks =>
    match t.insert k with
    | .error e => .error e
    | .ok t2 => insertAllE t2 ks

/-- Remove a list of keys left to right, propagating the first failure. -/
def removeAllE {α : Type} {cmp : α → α → Ordering} (t : jsw_rbtree α cmp) :
    List α → Except UtError (jsw_rbtree α cmp)
  | [] => .ok t
  | k :: ks =>
    match t.remove k with
    | .error e => .error e
    | .ok t2 => removeAllE t2 ks

/-- Traverse the tree produced by a fallible construction. -/
def travOf {α : Type} {cmp : α → α → Ordering} (x : Except UtError (jsw_rbtree α cmp)) :
    Except UtError (List α) :=
  match x with
  | .ok t => rbTravAll t
  | .error e => .error e

/-- The tree of the spec's concrete scenario: keys [5, 3, 8, 1, 4, 7, 9] inserted in
that order into an empty tree. -/
def c4TreeA : Except UtError (jsw_rbtree Nat compare) :=
  insertAllE (jsw_rbnew Nat compare true) [5, 3, 8, 1, 4, 7, 9]

/-- The scenario tree after additionally removing key 3. -/
def c4TreeB : Except UtError (jsw_rbtree Nat compare) :=
  match c4TreeA with
  | .ok t => t.remove 3
  | .error e => .error e

/-! ### Linked list engine model (`ut_ll`, util.h line 227) -/

/-- Modelled from the spec: the linked list engine (`ll.c` is absent from `src/`;
`util.h` declares only the handle `ut_ll`).  A list owns its node chain and an element
count. -/
structure ut_ll_s (α : Type) where
  elems : List α
  count : Nat
  deriving DecidableEq

/-- Modelled from the spec: a forward list cursor as a zipper over the node chain:
`visited` holds the already-returned elements in reverse (its head is the current
element), `rest` the elements still to visit. -/
structure ut_ll_iter (α : Type) where
  visited : List α
  rest : List α
  deriving DecidableEq

/-- Create a cursor positioned before the first element. -/
def ut_llIter {α : Type} (l : ut_ll_s α) : ut_ll_iter α :=
  ⟨[], l.elems⟩

/-- Advance-and-return on the list cursor. -/
def llIterNext {α : Type} (it : ut_ll_iter α) : Option (α × ut_ll_iter α) :=
  match it.rest with
  | [] => none
  | x :: xs => some (x, ⟨x :: it.visited, xs⟩)

/-- Modelled from the spec: removing the element at the current cursor position
(single-threaded) unlinks it from the list and automatically repositions the cursor to
the next live element; with no current element it fails `NotFound`. -/
def llRemoveAtCursor {α : Type} (l : ut_ll_s α) (it : ut_ll_iter α) :
    Except UtError (ut_ll_s α × ut_ll_iter α) :=
  match it.visited with
  | [] => .error .notFound
  | _ :: vs => .ok (⟨vs.reverse ++ it.rest, l.count - 1⟩, ⟨vs, it.rest⟩)

/-- Perform `n` advances, collecting the returned elements. -/
def llAdvanceN {α : Type} : Nat → ut_ll_iter α → List α × ut_ll_iter α
  | 0, it => ([], it)
  | n + 1, it =>
    match llIterNext it with
    | none => ([], it)
    | some (x, it') =>
      let (xs, it'') := llAdvanceN n it'
      (x :: xs, it'')

/-- Drain the remaining elements of a cursor through repeated advances. -/
def llDrain {α : Type} (visited : List α) : List α → List α
  | [] => []
  | x :: xs => x :: llDrain (x :: visited) xs

/-- The delete-while-iterating scenario: walk a list from the start, and after the
advance that returns the element at index `i`, remove that element at the cursor, then
continue the walk to the end.  Returns the full visited sequence and the final list. -/
def llWalkRemoveAt {α : Type} (l : ut_ll_s α) (i : Nat) :
    Except UtError (List α × ut_ll_s α) :=
  match llAdvanceN (i + 1) (ut_llIter l) with
  | (pre, it1) =>
    match llRemoveAtCursor l it1 with
    | .error e => .error e
    | .ok (l', it2) => .ok (pre ++ llDrain it2.visited it2.rest, l')

/-- Insert all of `ks` into `t`, then remove all of `ks`, propagating failures. -/
def insertThenRemoveAll {α : Type} {cmp : α → α → Ordering} (t : jsw_rbtree α cmp)
    (ks : List α) : Except UtError (jsw_rbtree α cmp) :=
  match insertAllE t ks with
  | .ok t2 => removeAllE t2 ks
  | .error e => .error e

/-! ### Theorems: slot registry -/

theorem firstFreeSlot_replicate {δ : Type} (d : δ) :
    ∀ (j m : Nat), firstFreeSlot (List.replicate j (some d) ++ List.replicate m none)
      = if m = 0 then none else some j
  | 0, 0 => rfl
  | 0, _ + 1 => rfl
  | j + 1, m => by
    rw [List.replicate_succ, List.cons_append]
    show (firstFreeSlot (List.replicate j (some d) ++ List.replicate m none)).map (· + 1)
      = if m = 0 then none else some (j + 1)
    rw [firstFreeSlot_replicate d j m]
    cases m <;> rfl

theorem set_after_replicate {δ : Type} (d : δ) :
    ∀ (j : Nat) (rest : List (Option δ)),
      (List.replicate j (some d) ++ none :: rest).set j (some d)
        = List.replicate (j + 1) (some d) ++ rest
  | 0, _ => rfl
  | j + 1, rest => by
    rw [List.replicate_succ, List.cons_append, List.set_cons_succ,
      set_after_replicate d j rest]
    rw [List.replicate_succ (n := j + 1), List.cons_append]

theorem ut_olsRegisterN_replicate {δ : Type} (d : δ) :
    ∀ (n j m : Nat),
      ut_olsRegisterN d n ⟨List.replicate j (some d) ++ List.replicate m none⟩
        = if n ≤ m then
            .ok (List.range' j n,
              ⟨List.replicate (j + n) (some d) ++ List.replicate (m - n) none⟩)
          else .error .capacityExceeded
  | 0, j, m => by simp [ut_olsRegisterN]
  | n + 1, j, 0 => by
    rw [ut_olsRegisterN, ut_olsRegister]
    simp only [firstFreeSlot_replicate d j 0, if_pos rfl]
    simp
  | n + 1, j, m + 1 => by
    rw [ut_olsRegisterN, ut_olsRegister]
    simp only [firstFreeSlot_replicate d j (m + 1), Nat.succ_ne_zero, if_false]
    show (match ut_olsRegisterN d n ⟨(List.replicate j (some d)
        ++ none :: List.replicate m none).set j (some d)⟩ with
      | .error e => (.error e : Except UtError (List Nat × ut_ols δ))
      | .ok (ks, r'') => .ok (j :: ks, r'')) = _
    rw [set_after_replicate d j (List.replicate m none),
      ut_olsRegisterN_replicate d n (j + 1) m]
    by_cases h : n ≤ m
    · rw [if_pos h, if_pos (Nat.succ_le_succ h)]
      show Except.ok (j :: List.range' (j + 1) n, _) = _
      rw [← List.range'_succ]
      have h1 : j + 1 + n = j + (n + 1) := by omega
      have h2 : m - n = m + 1 - (n + 1) := by omega
      rw [h1, h2]
    · rw [if_neg h, if_neg (fun hc => h (Nat.le_of_succ_le_succ hc))]

/-- C5: For each slot-registry variant, `registerKey` on an initially empty registry
succeeds exactly up to the configured maximum key count of that variant, returning a
fresh (pairwise-distinct) integer key each time, and the registration after the
maximum fails with `CapacityExceeded`. -/
theorem registerKey_capacity (δ : Type) (d : δ) :
    (ut_olsRegisterN d UT_MAX_OLS_KEY (ut_olsNewDefault δ)
        = .ok (List.range' 0 UT_MAX_OLS_KEY, ⟨List.replicate UT_MAX_OLS_KEY (some d)⟩)
      ∧ (List.range' 0 UT_MAX_OLS_KEY).Nodup
      ∧ ut_olsRegisterN d (UT_MAX_OLS_KEY + 1) (ut_olsNewDefault δ)
        = .error .capacityExceeded)
    ∧ (ut_olsRegisterN d UT_MAX_THREAD_KEY (ut_tlsNewDefault δ)
        = .ok (List.range' 0 UT_MAX_THREAD_KEY, ⟨List.replicate UT_MAX_THREAD_KEY (some d)⟩)
      ∧ (List.range' 0 UT_MAX_THREAD_KEY).Nodup
      ∧ ut_olsRegisterN d (UT_MAX_THREAD_KEY + 1) (ut_tlsNewDefault δ)
        = .error .capacityExceeded) := by
  have key : ∀ cap : Nat,
      ut_olsRegisterN d cap (ut_olsNew δ cap)
        = .ok (List.range' 0 cap, ⟨List.replicate cap (some d)⟩)
      ∧ ut_olsRegisterN d (cap + 1) (ut_olsNew δ cap) = .error .capacityExceeded := by
    intro cap
    constructor
    · show ut_olsRegisterN d cap ⟨List.replicate cap none⟩ = _
      have h := ut_olsRegisterN_replicate d cap 0 cap
      simpa using h
    · show ut_olsRegisterN d (cap + 1) ⟨List.replicate cap none⟩ = _
      have h := ut_olsRegisterN_replicate d (cap + 1) 0 cap
      simpa using h
  exact ⟨⟨(key UT_MAX_OLS_KEY).1, List.nodup_range' .., (key UT_MAX_OLS_KEY).2⟩,
    (key UT_MAX_THREAD_KEY).1, List.nodup_range' .., (key UT_MAX_THREAD_KEY).2⟩

/-- C9: The registry capacities are fixed compile-time constants, identical for every
registry instance: the object-scoped variant holds at most `UT_MAX_OLS_KEY = 256` keys,
the thread-scoped variant at most `UT_MAX_THREAD_KEY = 256` keys, and at most
`UT_MAX_THREADS = 64` threads may use the thread-scoped variant simultaneously. -/
theorem registry_capacities_fixed :
    UT_MAX_OLS_KEY = 256 ∧ UT_MAX_THREAD_KEY = 256 ∧ UT_MAX_THREADS = 64
    ∧ (∀ δ : Type, (ut_olsNewDefault δ).slots.length = UT_MAX_OLS_KEY)
    ∧ (∀ δ : Type, (ut_tlsNewDefault δ).slots.length = UT_MAX_THREAD_KEY)
    ∧ (∀ V : Type, (ut_tlsNewOwnerTable V).length = UT_MAX_THREADS)
    ∧ (∀ tid : Nat, ut_threadIdValid tid ↔ tid < 64) := by
  refine ⟨rfl, rfl, rfl, fun δ => ?_, fun δ => ?_, fun V => ?_, fun tid => Iff.rfl⟩ <;>
    apply List.length_replicate

/-! ### Theorems: red-black invariants -/

theorem balanced_rootBlack {α : Type} {t : RBNode α} {n : Nat}
    (h : Balanced t .black n) : rootBlack t = true := by
  cases h <;> rfl

theorem balanced_noRedRed {α : Type} {t : RBNode α} {c : RBColor} {n : Nat}
    (h : Balanced t c n) : noRedRed t = true := by
  induction h with
  | nil => rfl
  | red ha hb iha ihb =>
    simp [noRedRed, iha, ihb, balanced_rootBlack ha, balanced_rootBlack hb]
  | black ha hb iha ihb => simp [noRedRed, iha, ihb]

theorem balanced_blackHeight {α : Type} {t : RBNode α} {c : RBColor} {n : Nat}
    (h : Balanced t c n) : blackHeight? t = some n := by
  induction h with
  | nil => rfl
  | red ha hb iha ihb => simp [blackHeight?, iha, ihb]
  | black ha hb iha ihb => simp [blackHeight?, iha, ihb]

theorem TreeWF_empty {α : Type} {cmp : α → α → Ordering} (pol : Bool) :
    TreeWF (jsw_rbnew α cmp pol) :=
  ⟨⟨⟩, 0, .nil⟩

theorem TreeWF_insert {α : Type} {cmp : α → α → Ordering} [Batteries.TransCmp cmp]
    {t t' : jsw_rbtree α cmp} {v : α} (h : TreeWF t) (e : t.insert v = .ok t') :
    TreeWF t' := by
  obtain ⟨ho, n, hb⟩ := h
  have hroot : t'.root = (t.root.insert cmp v).setBlack := by
    unfold jsw_rbtree.insert at e
    split at e
    · split at e
      · cases e; rfl
      · cases e
    · cases e; rfl
  refine ⟨?_, ?_⟩
  · rw [hroot]
    exact Batteries.RBNode.Ordered.setBlack.2 ho.insert
  · rw [hroot]
    have h2 : ∃ c' n', ((t.root.insert cmp v).Balanced c' n') := hb.insert
    obtain ⟨c', n', hb'⟩ := h2
    exact hb'.setBlack

theorem TreeWF_remove {α : Type} {cmp : α → α → Ordering}
    {t t' : jsw_rbtree α cmp} {k : α} (h : TreeWF t) (e : t.remove k = .ok t') :
    TreeWF t' := by
  obtain ⟨ho, n, hb⟩ := h
  have hroot : t'.root = t.root.erase (cmp k) := by
    unfold jsw_rbtree.remove at e
    split at e
    · cases e
    · cases e; rfl
  refine ⟨?_, ?_⟩
  · rw [hroot]; exact ho.erase
  · rw [hroot]; exact hb.erase

theorem TreeWF_applyOp {α : Type} {cmp : α → α → Ordering} [Batteries.TransCmp cmp]
    {t : jsw_rbtree α cmp} (h : TreeWF t) (op : TreeOp α) : TreeWF (applyOp t op) := by
  cases op with
  | insert v =>
    show TreeWF (match t.insert v with | .ok t' => t' | .error _ => t)
    cases e : t.insert v with
    | ok t' => exact TreeWF_insert h e
    | error _ => exact h
  | remove k =>
    show TreeWF (match t.remove k with | .ok t' => t' | .error _ => t)
    cases e : t.remove k with
    | ok t' => exact TreeWF_remove h e
    | error _ => exact h

theorem TreeWF_applyOps {α : Type} {cmp : α → α → Ordering} [Batteries.TransCmp cmp]
    {t : jsw_rbtree α cmp} (h : TreeWF t) :
    ∀ ops : List (TreeOp α), TreeWF (applyOps t ops)
  | [] => h
  | op :: ops => TreeWF_applyOps (TreeWF_applyOp h op) ops

theorem TreeWF.rbInvariants {α : Type} {cmp : α → α → Ordering} [Batteries.TransCmp cmp]
    {t : jsw_rbtree α cmp} (h : TreeWF t) : rbInvariants t := by
  obtain ⟨ho, n, hb⟩ := h
  refine ⟨balanced_rootBlack hb, balanced_noRedRed hb, ?_, ?_⟩
  · rw [balanced_blackHeight hb]; rfl
  · exact ho.toList_sorted.imp fun hlt => Batteries.RBNode.cmpLT_iff.1 hlt

/-- C1: For every sequence of insert and remove operations applied to an initially
empty ordered tree (under either duplicate policy), after every mutation the tree
satisfies all four red-black invariants: the root is black, no red node has a red
child, every root-to-leaf path has equal black-height, and the in-order element
sequence is strictly ordered by the caller-supplied (lawful) comparator. -/
theorem rb_invariants_hold (α : Type) (cmp : α → α → Ordering) [Batteries.TransCmp cmp]
    (pol : Bool) (ops : List (TreeOp α)) :
    rbInvariants (applyOps (jsw_rbnew α cmp pol) ops) :=
  (TreeWF_applyOps (TreeWF_empty pol) ops).rbInvariants

/-- Witness for C1 at a concrete comparator and operation sequence. -/
theorem rb_invariants_hold_witness :
    rbInvariants (applyOps (jsw_rbnew Nat compare true)
      [.insert 5, .insert 3, .insert 8, .remove 3, .insert 1]) :=
  rb_invariants_hold Nat compare true [.insert 5, .insert 3, .insert 8, .remove 3, .insert 1]

/-! ### Theorems: cursor staleness check (C2, C8) -/

theorem rbtfirst_aux_changes {α : Type} {snap : Nat} :
    ∀ {root : RBNode α} {trav : jsw_rbtrav α}, rbtfirst_aux snap root = .ok trav →
      trav.changes = snap := by
  intro root trav e
  cases root with
  | nil =>
    rw [rbtfirst_aux] at e
    cases e
    rfl
  | node c a x b =>
    rw [rbtfirst_aux] at e
    split at e
    · cases e; rfl
    · cases e

theorem rbtfirst_changes_eq {α : Type} {cmp : α → α → Ordering} {t : jsw_rbtree α cmp}
    {trav : jsw_rbtrav α} (e : jsw_rbtfirst t = .ok trav) :
    trav.changes = t.changes % UINT32_MOD :=
  rbtfirst_aux_changes e

theorem insert_changes {α : Type} {cmp : α → α → Ordering} {t t' : jsw_rbtree α cmp}
    {v : α} (e : t.insert v = .ok t') : t'.changes = t.changes + 1 := by
  unfold jsw_rbtree.insert at e
  split at e
  · split at e
    · cases e; rfl
    · cases e
  · cases e; rfl

/-- C2: Every cursor operation first compares the cursor's cached modification-counter
snapshot against the tree's current counter and fails `IteratorInvalidated` on a
mismatch; in particular, creating a cursor, then inserting a new element into the tree,
then advancing the cursor yields `IteratorInvalidated`. -/
theorem cursor_ops_check_modcount (α : Type) (cmp : α → α → Ordering) :
    (∀ (t : jsw_rbtree α cmp) (trav : jsw_rbtrav α), rbIterChanged trav t = true →
      rbIterHasNext t trav = .error .iteratorInvalidated
      ∧ jsw_rbtnext t trav = .error .iteratorInvalidated
      ∧ rbIterNextPtr t trav = .error .iteratorInvalidated)
    ∧ (∀ (t t' : jsw_rbtree α cmp) (trav : jsw_rbtrav α) (v : α),
        jsw_rbtfirst t = .ok trav → t.insert v = .ok t' →
        jsw_rbtnext t' trav = .error .iteratorInvalidated) := by
  constructor
  · intro t trav h
    refine ⟨?_, ?_, ?_⟩ <;> simp [rbIterHasNext, jsw_rbtnext, rbIterNextPtr, h]
  · intro t t' trav v hf hi
    have h1 := rbtfirst_changes_eq hf
    have h2 := insert_changes hi
    have hne : trav.changes ≠ t'.changes % UINT32_MOD := by
      rw [h1, h2]
      show t.changes % UINT32_MOD ≠ (t.changes + 1) % UINT32_MOD
      unfold UINT32_MOD
      omega
    have hch : rbIterChanged trav t' = true := by
      simp [rbIterChanged, bne_iff_ne, hne]
    simp [jsw_rbtnext, hch]

/-- Witness for C2: a stale cursor (mismatched snapshot) is rejected by `hasNext`, and
the concrete create-cursor / insert / advance scenario fails `IteratorInvalidated`. -/
theorem cursor_ops_check_modcount_witness :
    rbIterHasNext (⟨.nil, 0, 1, true⟩ : jsw_rbtree Nat compare) ⟨none, [], 0⟩
        = .error .iteratorInvalidated
    ∧ jsw_rbtnext
        (((⟨.node .black .nil 1 .nil, 1, 7, true⟩ : jsw_rbtree Nat compare).insert 2).toOption.getD
          (jsw_rbnew Nat compare true))
        ⟨some (.node .black .nil 1 .nil), [], 7⟩ = .error .iteratorInvalidated :=
  ⟨((cursor_ops_check_modcount Nat compare).1 ⟨.nil, 0, 1, true⟩ ⟨none, [], 0⟩ (by decide)).1,
    (cursor_ops_check_modcount Nat compare).2 ⟨.node .black .nil 1 .nil, 1, 7, true⟩ _
      ⟨some (.node .black .nil 1 .nil), [], 7⟩ 2 (by decide) (by decide)⟩

/-- C8: The cursor's snapshot is a 32-bit field, so the staleness comparison is
effectively modulo `2^32`: bumping the tree's modification counter by any multiple of
`2^32` is invisible to the check, and a cursor created earlier still passes as valid
after exactly `2^32 * k` intervening counter increments. -/
theorem modcount_wraparound (α : Type) (cmp : α → α → Ordering) :
    (∀ (t : jsw_rbtree α cmp) (trav : jsw_rbtrav α) (k : Nat),
      rbIterChanged trav
          (⟨t.root, t.cnt, t.changes + UINT32_MOD * k, t.dupReplace⟩ : jsw_rbtree α cmp)
        = rbIterChanged trav t)
    ∧ (∀ (t : jsw_rbtree α cmp) (trav : jsw_rbtrav α) (k : Nat),
        jsw_rbtfirst t = .ok trav →
        rbIterChanged trav
            (⟨t.root, t.cnt, t.changes + UINT32_MOD * k, t.dupReplace⟩ : jsw_rbtree α cmp)
          = false) := by
  have hmod : ∀ c k : Nat, (c + UINT32_MOD * k) % UINT32_MOD = c % UINT32_MOD := by
    intro c k
    exact Nat.add_mul_mod_self_left c UINT32_MOD k
  constructor
  · intro t trav k
    simp only [rbIterChanged, hmod]
  · intro t trav k hf
    have h1 := rbtfirst_changes_eq hf
    simp only [rbIterChanged, hmod, h1, bne_self_eq_false]

/-- Witness for C8: a freshly created cursor still passes the staleness check after
`2^32` counter increments. -/
theorem modcount_wraparound_witness :
    rbIterChanged (⟨some (.node .black .nil 1 .nil), [], 3⟩ : jsw_rbtrav Nat)
      (⟨.node .black .nil 1 .nil, 1, 3 + UINT32_MOD * 1, true⟩ : jsw_rbtree Nat compare)
      = false :=
  (modcount_wraparound Nat compare).2 ⟨.node .black .nil 1 .nil, 1, 3, true⟩
    ⟨some (.node .black .nil 1 .nil), [], 3⟩ 1 (by decide)

/-! ### Theorems: path-stack capacity (C10) -/

theorem descendLeft_path_le {α : Type} :
    ∀ (s : RBNode α) (p : List (RBNode α × Bool)) (s' : RBNode α)
      (p' : List (RBNode α × Bool)), p.length ≤ HEIGHT_LIMIT →
      descendLeft s p = .ok (s', p') → p'.length ≤ HEIGHT_LIMIT
  | .nil, p, s', p' => by intro _ e; cases e
  | .node c .nil x b, p, s', p' => by
    intro h e
    cases e
    exact h
  | .node c (.node c' a' x' b') x b, p, s', p' => by
    intro h e
    rw [descendLeft] at e
    split at e
    · exact descendLeft_path_le _ _ _ _ (by simp only [List.length_cons]; omega) e
    · cases e

theorem popUp_path_le {α : Type} :
    ∀ p : List (RBNode α × Bool), (popUp p).2.length ≤ p.length
  | [] => Nat.le_refl 0
  | (_, true) :: rest => Nat.le_succ_of_le (popUp_path_le rest)
  | (_, false) :: rest => Nat.le_succ rest.length

theorem rbtnext_state_path_le {α : Type} {cur : RBNode α} {p : List (RBNode α × Bool)}
    {o : Option (RBNode α)} {p' : List (RBNode α × Bool)}
    (h : p.length ≤ HEIGHT_LIMIT) (e : jsw_rbtnext_state cur p = .ok (o, p')) :
    p'.length ≤ HEIGHT_LIMIT := by
  cases cur with
  | nil =>
    rw [jsw_rbtnext_state] at e
    cases e
  | node c a x b =>
    cases b with
    | nil =>
      rw [jsw_rbtnext_state] at e
      injection e with e2
      have h2 : p' = (popUp p).2 := by rw [e2]
      rw [h2]
      exact Nat.le_trans (popUp_path_le p) h
    | node rc ra rx rb =>
      rw [jsw_rbtnext_state] at e
      split at e
      · split at e
        · cases e
          refine descendLeft_path_le _ _ _ _ ?_ ‹_›
          simp only [List.length_cons]
          omega
        · cases e
      · cases e

theorem rbtfirst_path_le {α : Type} {cmp : α → α → Ordering} {t : jsw_rbtree α cmp}
    {trav : jsw_rbtrav α} (e : jsw_rbtfirst t = .ok trav) :
    trav.path.length ≤ HEIGHT_LIMIT := by
  unfold jsw_rbtfirst at e
  cases hr : t.root with
  | nil =>
    rw [hr, rbtfirst_aux] at e
    cases e
    exact Nat.zero_le _
  | node c a x b =>
    rw [hr, rbtfirst_aux] at e
    split at e
    · cases e
      exact descendLeft_path_le _ _ _ _ (Nat.zero_le _) ‹_›
    · cases e

theorem rbtnext_path_le {α : Type} {cmp : α → α → Ordering} {t : jsw_rbtree α cmp}
    {trav : jsw_rbtrav α} {r : Option α} {trav' : jsw_rbtrav α}
    (h : trav.path.length ≤ HEIGHT_LIMIT) (e : jsw_rbtnext t trav = .ok (r, trav')) :
    trav'.path.length ≤ HEIGHT_LIMIT := by
  unfold jsw_rbtnext at e
  split at e
  · cases e
  · split at e
    · cases e
      exact h
    · split at e
      · cases e
      · split at e
        · cases e
          exact rbtnext_state_path_le h ‹_›
        · cases e

/-- C10: The traversal path capacity is the single compile-time constant
`HEIGHT_LIMIT = 24`; every cursor of every tree in a build shares that bound: a freshly
created cursor's path fits in `HEIGHT_LIMIT` entries and every successful advance keeps
it within `HEIGHT_LIMIT` entries. -/
theorem height_limit_capacity :
    HEIGHT_LIMIT = 24
    ∧ (∀ (α : Type) (cmp : α → α → Ordering) (t : jsw_rbtree α cmp) (trav : jsw_rbtrav α),
        jsw_rbtfirst t = .ok trav → trav.path.length ≤ HEIGHT_LIMIT)
    ∧ (∀ (α : Type) (cmp : α → α → Ordering) (t : jsw_rbtree α cmp)
        (trav : jsw_rbtrav α) (r : Option α) (trav' : jsw_rbtrav α),
        trav.path.length ≤ HEIGHT_LIMIT → jsw_rbtnext t trav = .ok (r, trav') →
        trav'.path.length ≤ HEIGHT_LIMIT) :=
  ⟨rfl, fun _ _ _ _ e => rbtfirst_path_le e, fun _ _ _ _ _ _ h e => rbtnext_path_le h e⟩

/-- Witness for C10 at a concrete one-node tree and its cursor. -/
theorem height_limit_capacity_witness :
    (([] : List (RBNode Nat × Bool)).length ≤ HEIGHT_LIMIT)
    ∧ ((⟨none, [], 0⟩ : jsw_rbtrav Nat).path.length ≤ HEIGHT_LIMIT) :=
  ⟨height_limit_capacity.2.1 Nat compare ⟨.node .black .nil 1 .nil, 1, 0, true⟩
      ⟨some (.node .black .nil 1 .nil), [], 0⟩ (by decide),
    height_limit_capacity.2.2 Nat compare ⟨.node .black .nil 1 .nil, 1, 0, true⟩
      ⟨some (.node .black .nil 1 .nil), [], 0⟩ (some 1) ⟨none, [], 0⟩ (by decide) (by decide)⟩

/-! ### Theorems: concrete traversal scenario (C4) -/

/-- C4: Inserting the keys [5, 3, 8, 1, 4, 7, 9] in that order into an empty tree and
performing a full in-order cursor traversal yields exactly [1, 3, 4, 5, 7, 8, 9];
subsequently removing key 3 and traversing again yields exactly [1, 4, 5, 7, 8, 9]. -/
theorem inorder_traversal_scenario :
    travOf c4TreeA = .ok [1, 3, 4, 5, 7, 8, 9]
    ∧ travOf c4TreeB = .ok [1, 4, 5, 7, 8, 9] := by
  constructor
  · decide
  · simp [travOf, c4TreeB, c4TreeA, insertAllE, jsw_rbnew, jsw_rbtree.insert,
      jsw_rbtree.find?, jsw_rbtree.remove, Batteries.RBNode.find?, Batteries.RBNode.insert,
      Batteries.RBNode.ins, Batteries.RBNode.balance1, Batteries.RBNode.balance2,
      Batteries.RBNode.setBlack, Batteries.RBNode.isRed, Batteries.RBNode.erase,
      Batteries.RBNode.del, Batteries.RBNode.append, Batteries.RBNode.balLeft,
      Batteries.RBNode.balRight, Batteries.RBNode.setRed, Batteries.RBNode.isBlack,
      rbTravAll, jsw_rbtfirst, rbtfirst_aux, descendLeft, rbTravCollect, jsw_rbtnext,
      jsw_rbtnext_state, rbIterChanged, popUp, UINT32_MOD, HEIGHT_LIMIT, compare,
      compareOfLessAndEq]

/-! ### Theorems: list removal at the cursor (C6) -/

theorem llDrain_eq {α : Type} : ∀ (vis rest : List α), llDrain vis rest = rest
  | _, [] => rfl
  | vis, x :: xs => by rw [llDrain, llDrain_eq (x :: vis) xs]

theorem llAdvanceN_spec {α : Type} :
    ∀ (n : Nat) (vis rest : List α), n ≤ rest.length →
      llAdvanceN n ⟨vis, rest⟩
        = (rest.take n, ⟨(rest.take n).reverse ++ vis, rest.drop n⟩)
  | 0, vis, rest => by simp [llAdvanceN]
  | n + 1, vis, [] => by intro h; cases h
  | n + 1, vis, x :: xs => by
    intro h
    rw [llAdvanceN]
    show (match llIterNext ⟨vis, x :: xs⟩ with
      | none => (([] : List α), (⟨vis, x :: xs⟩ : ut_ll_iter α))
      | some (y, it') =>
        let p := llAdvanceN n it'
        (y :: p.1, p.2)) = _
    rw [llIterNext]
    show (let p := llAdvanceN n (⟨x :: vis, xs⟩ : ut_ll_iter α); (x :: p.1, p.2)) = _
    rw [llAdvanceN_spec n (x :: vis) xs (Nat.le_of_succ_le_succ h)]
    simp [List.take_succ_cons, List.drop_succ_cons]

/-- C6: For every non-empty list traversed by a cursor, removing the element at the
current cursor position does not invalidate the walk: the cursor is repositioned to the
next live element, so the complete walk visits exactly the original elements in order
(the element following the removed one is not skipped and the removed one is not
revisited), and the final list is the original with that element deleted. -/
theorem list_remove_at_cursor (α : Type) (l : ut_ll_s α) (i : Nat)
    (h : i < l.elems.length) :
    llWalkRemoveAt l i = .ok (l.elems, ⟨l.elems.eraseIdx i, l.count - 1⟩) := by
  have hadv := llAdvanceN_spec (i + 1) [] l.elems (Nat.succ_le_of_lt h)
  have htake : l.elems.take (i + 1) = l.elems.take i ++ [l.elems[i]] := by
    rw [List.take_succ]
    simp [List.getElem?_eq_getElem h]
  rw [llWalkRemoveAt, ut_llIter, hadv]
  simp only [List.append_nil, htake, List.reverse_append, List.reverse_cons,
    List.reverse_nil, List.nil_append, List.singleton_append]
  simp only [llRemoveAtCursor]
  simp only [llDrain_eq, List.reverse_reverse]
  rw [← htake, List.take_append_drop, List.eraseIdx_eq_take_drop_succ]

/-- Witness for C6 at a concrete three-element list, removing at cursor position 1. -/
theorem list_remove_at_cursor_witness :
    llWalkRemoveAt (⟨[10, 20, 30], 3⟩ : ut_ll_s Nat) 1
      = .ok ([10, 20, 30], ⟨[10, 30], 2⟩) :=
  list_remove_at_cursor Nat ⟨[10, 20, 30], 3⟩ 1 (by decide)

/-! ### Theorems: insert-then-remove algebra (C7) -/

theorem append_toList {α : Type} : ∀ (l r : RBNode α),
    (l.append r).toList = l.toList ++ r.toList
  | .nil, x => by simp [RBNode.append]
  | .node c a v b, .nil => by simp [RBNode.append]
  | .node .red a x b, .node .red c y d => by
    have ih := append_toList b c
    simp only [RBNode.append]
    split
    · rename_i b' z c' heq
      have h2 : b.toList ++ c.toList = b'.toList ++ z :: c'.toList := by
        rw [← ih, heq]
        simp
      simp only [Batteries.RBNode.toList_node, List.append_assoc, List.cons_append]
      rw [← List.append_assoc b.toList c.toList, h2]
      simp [List.append_assoc]
    · simp only [Batteries.RBNode.toList_node, List.append_assoc, List.cons_append, ih]
  | .node .black a x b, .node .black c y d => by
    have ih := append_toList b c
    simp only [RBNode.append]
    split
    · rename_i b' z c' heq
      have h2 : b.toList ++ c.toList = b'.toList ++ z :: c'.toList := by
        rw [← ih, heq]
        simp
      simp only [Batteries.RBNode.toList_node, List.append_assoc, List.cons_append]
      rw [← List.append_assoc b.toList c.toList, h2]
      simp [List.append_assoc]
    · simp only [Batteries.RBNode.balLeft_toList, Batteries.RBNode.toList_node,
        List.append_assoc, List.cons_append, ih]
  | .node .black a x b, .node .red c y d => by
    have ih := append_toList (RBNode.node .black a x b) c
    simp only [RBNode.append]
    simp only [Batteries.RBNode.toList_node, ih, List.append_assoc, List.cons_append]
  | .node .red a x b, .node .black c y d => by
    have ih := append_toList b (RBNode.node .black c y d)
    simp only [RBNode.append]
    simp only [Batteries.RBNode.toList_node, ih, List.append_assoc, List.cons_append]
termination_by l r => l.size + r.size

theorem toList_del_filter {α : Type} {cmp : α → α → Ordering} [Batteries.TransCmp cmp] (k : α) :
    ∀ {t : RBNode α}, Ordered cmp t →
      (RBNode.del (cmp k) t).toList = t.toList.filter (fun x => cmp k x != .eq)
  | .nil, _ => rfl
  | .node c a y b, ⟨ay, yb, ha, hb⟩ => by
    have elt : (Ordering.lt != Ordering.eq) = true := rfl
    have egt : (Ordering.gt != Ordering.eq) = true := rfl
    have eeq : (Ordering.eq != Ordering.eq) = false := rfl
    cases hky : cmp k y with
    | lt =>
      have hbkeep : b.toList.filter (fun x => cmp k x != .eq) = b.toList := by
        apply List.filter_eq_self.2
        intro z hz
        have hyz : cmp y z = .lt :=
          Batteries.RBNode.cmpLT_iff.1
            (Batteries.RBNode.All_def.1 yb z (Batteries.RBNode.mem_toList.1 hz))
        show (cmp k z != Ordering.eq) = true
        rw [Batteries.TransCmp.lt_trans hky hyz]
        exact elt
      have ihd := toList_del_filter k ha
      cases hab : a.isBlack with
      | black =>
        simp [RBNode.del, hky, hab, ihd, List.filter_append, hbkeep, List.filter_cons, elt]
      | red =>
        simp [RBNode.del, hky, hab, ihd, List.filter_append, hbkeep, List.filter_cons, elt]
    | gt =>
      have hakeep : a.toList.filter (fun x => cmp k x != .eq) = a.toList := by
        apply List.filter_eq_self.2
        intro z hz
        have hzy : cmp z y = .lt :=
          Batteries.RBNode.cmpLT_iff.1
            (Batteries.RBNode.All_def.1 ay z (Batteries.RBNode.mem_toList.1 hz))
        have hyk : cmp y k = .lt := Batteries.OrientedCmp.cmp_eq_gt.1 hky
        have hzk : cmp z k = .lt := Batteries.TransCmp.lt_trans hzy hyk
        show (cmp k z != Ordering.eq) = true
        rw [Batteries.OrientedCmp.cmp_eq_gt.2 hzk]
        exact egt
      have ihd := toList_del_filter k hb
      cases hbb : b.isBlack with
      | black =>
        simp [RBNode.del, hky, hbb, ihd, List.filter_append, hakeep, List.filter_cons, egt]
      | red =>
        simp [RBNode.del, hky, hbb, ihd, List.filter_append, hakeep, List.filter_cons, egt]
    | eq =>
      have hakeep : a.toList.filter (fun x => cmp k x != .eq) = a.toList := by
        apply List.filter_eq_self.2
        intro z hz
        have hzy : cmp z y = .lt :=
          Batteries.RBNode.cmpLT_iff.1
            (Batteries.RBNode.All_def.1 ay z (Batteries.RBNode.mem_toList.1 hz))
        have hne : cmp k z ≠ .eq := fun he => by
          have h2 : cmp k y = cmp z y := Batteries.TransCmp.cmp_congr_left he
          rw [hky, hzy] at h2
          cases h2
        show (cmp k z != Ordering.eq) = true
        cases hc : cmp k z with
        | lt => exact elt
        | gt => exact egt
        | eq => exact absurd hc hne
      have hbkeep : b.toList.filter (fun x => cmp k x != .eq) = b.toList := by
        apply List.filter_eq_self.2
        intro z hz
        have hyz : cmp y z = .lt :=
          Batteries.RBNode.cmpLT_iff.1
            (Batteries.RBNode.All_def.1 yb z (Batteries.RBNode.mem_toList.1 hz))
        have hne : cmp k z ≠ .eq := fun he => by
          have h2 : cmp k y = cmp z y := Batteries.TransCmp.cmp_congr_left he
          have hzy : cmp z y = .gt := Batteries.OrientedCmp.cmp_eq_gt.2 hyz
          rw [hky, hzy] at h2
          cases h2
        show (cmp k z != Ordering.eq) = true
        cases hc : cmp k z with
        | lt => exact elt
        | gt => exact egt
        | eq => exact absurd hc hne
      simp [RBNode.del, hky, append_toList, List.filter_append, hakeep, hbkeep,
        List.filter_cons, eeq]

theorem toList_erase_filter {α : Type} {cmp : α → α → Ordering} [Batteries.TransCmp cmp]
    (k : α) {t : RBNode α} (h : Ordered cmp t) :
    (t.erase (cmp k)).toList = t.toList.filter (fun x => cmp k x != .eq) := by
  rw [Batteries.RBNode.erase, Batteries.RBNode.setBlack_toList, toList_del_filter k h]

theorem mem_setBlack {α : Type} {t : RBNode α} {x : α} : x ∈ t.setBlack ↔ x ∈ t := by
  rw [← Batteries.RBNode.mem_toList, Batteries.RBNode.setBlack_toList,
    Batteries.RBNode.mem_toList]

theorem bne_eq_true_iff_ne {o : Ordering} : (o != Ordering.eq) = true ↔ o ≠ Ordering.eq := by
  cases o <;> decide

theorem insertAllE_spec {α : Type} {cmp : α → α → Ordering} [Batteries.TransCmp cmp] :
    ∀ (ks : List α) (t : jsw_rbtree α cmp), TreeWF t →
      ks.Pairwise (fun a b => cmp a b ≠ .eq) →
      (∀ k ∈ ks, ¬ Batteries.RBNode.MemP (cmp k) t.root) →
      ∃ t2, insertAllE t ks = .ok t2 ∧ TreeWF t2
        ∧ t2.cnt = t.cnt + ks.length
        ∧ (∀ k ∈ ks, Batteries.RBNode.MemP (cmp k) t2.root)
        ∧ (∀ k0 : α, Batteries.RBNode.MemP (cmp k0) t.root →
            Batteries.RBNode.MemP (cmp k0) t2.root)
        ∧ (∀ x : α, x ∈ t2.root → x ∈ t.root ∨ ∃ k ∈ ks, cmp k x = .eq)
  | [], t => fun hwf _ _ =>
    ⟨t, rfl, hwf, by simp, by simp, fun _ h => h, fun x hx => .inl hx⟩
  | k :: ks, t => fun hwf hnd habs => by
    obtain ⟨ho, n, hb⟩ := hwf
    have habs_k : ¬ Batteries.RBNode.MemP (cmp k) t.root := habs k (by simp)
    have hfind : t.root.find? (cmp k) = none := by
      cases hf : t.root.find? (cmp k) with
      | none => rfl
      | some x => exact absurd (Batteries.RBNode.find?_some_memP (by rw [hf]; rfl)) habs_k
    have hins : t.insert k
        = .ok ⟨(t.root.insert cmp k).setBlack, t.cnt + 1, t.changes + 1, t.dupReplace⟩ := by
      unfold jsw_rbtree.insert
      rw [hfind]
    have hwf1 : TreeWF (⟨(t.root.insert cmp k).setBlack, t.cnt + 1, t.changes + 1,
        t.dupReplace⟩ : jsw_rbtree α cmp) := TreeWF_insert ⟨ho, n, hb⟩ hins
    have hmem1 : ∀ x : α,
        x ∈ ((t.root.insert cmp k).setBlack : RBNode α) ↔ (x ∈ t.root ∨ x = k) := by
      intro x
      rw [mem_setBlack]
      constructor
      · intro hx
        rcases (Batteries.RBNode.mem_insert hb ho).1 hx with ⟨hx', _⟩ | rfl
        · exact .inl hx'
        · exact .inr rfl
      · intro hx
        rcases hx with hx | rfl
        · refine (Batteries.RBNode.mem_insert hb ho).2 (.inl ⟨hx, ?_⟩)
          rw [hfind]
          exact fun h => Option.noConfusion h
        · exact Batteries.RBNode.mem_insert_self hb
    have habs' : ∀ k' ∈ ks, ¬ Batteries.RBNode.MemP (cmp k')
        ((t.root.insert cmp k).setBlack : RBNode α) := by
      intro k' hk' hm
      obtain ⟨x, hx, he⟩ := Batteries.RBNode.memP_def.1 hm
      rcases (hmem1 x).1 hx with hx' | rfl
      · exact habs k' (List.mem_cons_of_mem k hk') (Batteries.RBNode.memP_def.2 ⟨x, hx', he⟩)
      · exact (List.pairwise_cons.1 hnd).1 k' hk' (Batteries.OrientedCmp.cmp_eq_eq_symm.1 he)
    obtain ⟨t2, hrec, hwf2, hcnt, hpres, hmono, hsub⟩ :=
      insertAllE_spec ks ⟨(t.root.insert cmp k).setBlack, t.cnt + 1, t.changes + 1,
        t.dupReplace⟩ hwf1 (List.pairwise_cons.1 hnd).2 habs'
    have hstep : ∀ k0 : α, Batteries.RBNode.MemP (cmp k0) t.root →
        Batteries.RBNode.MemP (cmp k0) ((t.root.insert cmp k).setBlack : RBNode α) := by
      intro k0 h0
      obtain ⟨x, hx, he⟩ := Batteries.RBNode.memP_def.1 h0
      exact Batteries.RBNode.memP_def.2 ⟨x, (hmem1 x).2 (.inl hx), he⟩
    refine ⟨t2, ?_, hwf2, ?_, ?_, ?_, ?_⟩
    · rw [insertAllE, hins]
      exact hrec
    · rw [hcnt]
      show t.cnt + 1 + ks.length = t.cnt + (k :: ks).length
      simp [Nat.add_assoc, Nat.add_comm 1 ks.length]
    · intro k' hk'
      rcases List.mem_cons.1 hk' with rfl | hk''
      · refine hmono k' (Batteries.RBNode.memP_def.2 ⟨k', (hmem1 k').2 (.inr rfl), ?_⟩)
        exact Batteries.OrientedCmp.cmp_refl
      · exact hpres k' hk''
    · intro k0 h0
      exact hmono k0 (hstep k0 h0)
    · intro x hx
      rcases hsub x hx with hx1 | ⟨k', hk', he⟩
      · rcases (hmem1 x).1 hx1 with hx' | hxk
        · exact .inl hx'
        · refine .inr ⟨k, by simp, ?_⟩
          rw [hxk]
          exact Batteries.OrientedCmp.cmp_refl
      · exact .inr ⟨k', List.mem_cons_of_mem k hk', he⟩

theorem removeAllE_spec {α : Type} {cmp : α → α → Ordering} [Batteries.TransCmp cmp] :
    ∀ (ks : List α) (t : jsw_rbtree α cmp), TreeWF t →
      ks.Pairwise (fun a b => cmp a b ≠ .eq) →
      (∀ k ∈ ks, Batteries.RBNode.MemP (cmp k) t.root) →
      ∃ t2, removeAllE t ks = .ok t2 ∧ TreeWF t2
        ∧ t2.cnt = t.cnt - ks.length
        ∧ (∀ x : α, x ∈ t2.root → x ∈ t.root ∧ ∀ k ∈ ks, cmp k x ≠ .eq)
  | [], t => fun hwf _ _ => ⟨t, rfl, hwf, by simp, fun x hx => ⟨hx, by simp⟩⟩
  | k :: ks, t => fun hwf hnd hpres => by
    obtain ⟨ho, n, hb⟩ := hwf
    have hmemk := hpres k (by simp)
    obtain ⟨xf, hfind⟩ := (Batteries.RBNode.Ordered.memP_iff_find? ho).1 hmemk
    have hrem : t.remove k
        = .ok ⟨t.root.erase (cmp k), t.cnt - 1, t.changes + 1, t.dupReplace⟩ := by
      unfold jsw_rbtree.remove
      rw [hfind]
    have hwf1 : TreeWF (⟨t.root.erase (cmp k), t.cnt - 1, t.changes + 1,
        t.dupReplace⟩ : jsw_rbtree α cmp) := TreeWF_remove ⟨ho, n, hb⟩ hrem
    have hmem1 : ∀ x : α, x ∈ (t.root.erase (cmp k) : RBNode α)
        ↔ (x ∈ t.root ∧ cmp k x ≠ .eq) := by
      intro x
      rw [← Batteries.RBNode.mem_toList, toList_erase_filter k ho, List.mem_filter,
        Batteries.RBNode.mem_toList, bne_eq_true_iff_ne]
    have hpres' : ∀ k' ∈ ks, Batteries.RBNode.MemP (cmp k')
        (t.root.erase (cmp k) : RBNode α) := by
      intro k' hk'
      obtain ⟨x, hx, he⟩ :=
        Batteries.RBNode.memP_def.1 (hpres k' (List.mem_cons_of_mem k hk'))
      have hne : cmp k x ≠ .eq := fun hkx => by
        have h3 : cmp x k' = .eq := Batteries.OrientedCmp.cmp_eq_eq_symm.1 he
        have h4 : cmp k x = cmp k k' := Batteries.TransCmp.cmp_congr_right h3
        rw [hkx] at h4
        exact (List.pairwise_cons.1 hnd).1 k' hk' h4.symm
      exact Batteries.RBNode.memP_def.2 ⟨x, (hmem1 x).2 ⟨hx, hne⟩, he⟩
    obtain ⟨t2, hrec, hwf2, hcnt, hsub⟩ :=
      removeAllE_spec ks ⟨t.root.erase (cmp k), t.cnt - 1, t.changes + 1, t.dupReplace⟩
        hwf1 (List.pairwise_cons.1 hnd).2 hpres'
    refine ⟨t2, ?_, hwf2, ?_, ?_⟩
    · rw [removeAllE, hrem]
      exact hrec
    · rw [hcnt]
      show t.cnt - 1 - ks.length = t.cnt - (k :: ks).length
      simp only [List.length_cons]
      omega
    · intro x hx
      obtain ⟨hx1, hks⟩ := hsub x hx
      obtain ⟨hxt, hkx⟩ := (hmem1 x).1 hx1
      refine ⟨hxt, fun k' hk' => ?_⟩
      rcases List.mem_cons.1 hk' with rfl | hk''
      · exact hkx
      · exact hks k' hk''

/-- C7: For every list of pairwise-distinct keys, inserting all of them into an empty
tree and then removing all of them succeeds and leaves the tree with size 0, and a
subsequent `find` on any of those keys returns the defined "absent" result (`none`). -/
theorem insert_remove_all_empties (α : Type) (cmp : α → α → Ordering)
    [Batteries.TransCmp cmp] (pol : Bool) (ks : List α)
    (hnd : ks.Pairwise (fun a b => cmp a b ≠ .eq)) :
    ∃ t', insertThenRemoveAll (jsw_rbnew α cmp pol) ks = .ok t'
      ∧ t'.size = 0 ∧ ∀ k ∈ ks, t'.find? k = none := by
  obtain ⟨t2, hA, hwf2, hcnt2, hpres, _, _⟩ :=
    insertAllE_spec ks (jsw_rbnew α cmp pol) (TreeWF_empty pol) hnd
      (fun k _ h => h)
  obtain ⟨t3, hB, hwf3, hcnt3, hsub3⟩ := removeAllE_spec ks t2 hwf2 hnd hpres
  refine ⟨t3, ?_, ?_, ?_⟩
  · rw [insertThenRemoveAll, hA]
    exact hB
  · show t3.cnt = 0
    rw [hcnt3, hcnt2]
    show 0 + ks.length - ks.length = 0
    omega
  · intro k hk
    cases hf : t3.find? k with
    | none => rfl
    | some x =>
      have hf' : t3.root.find? (cmp k) = some x := hf
      have hx : x ∈ t3.root := Batteries.RBNode.find?_some_mem (by rw [hf']; rfl)
      have he : cmp k x = .eq := Batteries.RBNode.find?_some_eq_eq (by rw [hf']; rfl)
      exact absurd he ((hsub3 x hx).2 k hk)

/-- Witness for C7 at three concrete distinct keys. -/
theorem insert_remove_all_empties_witness :
    ∃ t', insertThenRemoveAll (jsw_rbnew Nat compare true) [1, 2, 3] = .ok t'
      ∧ t'.size = 0 ∧ ∀ k ∈ [1, 2, 3], t'.find? k = none :=
  insert_remove_all_empties Nat compare true [1, 2, 3] (by decide)

/-! ### Theorems: traversal depth safety (C3) -/

theorem ancPath_length {α : Type} {t : RBNode α} :
    ∀ {p : List (RBNode α × Bool)} {s : RBNode α}, AncPath t p s →
      p.length + height s ≤ height t := by
  intro p s h
  induction h with
  | root => simp
  | left h ih =>
    simp only [List.length_cons]
    simp only [height] at ih
    omega
  | right h ih =>
    simp only [List.length_cons]
    simp only [height] at ih
    omega

theorem descendLeft_ok {α : Type} {t : RBNode α} (hh : height t ≤ HEIGHT_LIMIT) :
    ∀ (s : RBNode α) (p : List (RBNode α × Bool)), s ≠ .nil → AncPath t p s →
      ∃ s' p', descendLeft s p = .ok (s', p') ∧ s' ≠ .nil ∧ AncPath t p' s'
  | .nil, p => fun hne _ => absurd rfl hne
  | .node c .nil x b, p => fun _ hanc =>
    ⟨.node c .nil x b, p, rfl, fun h => RBNode.noConfusion h, hanc⟩
  | .node c (.node c' a' x' b') x b, p => fun _ hanc => by
    have h1 := ancPath_length hanc
    simp only [height] at h1
    have hlen : p.length < HEIGHT_LIMIT := by omega
    obtain ⟨s', p', he, hne', hanc'⟩ :=
      descendLeft_ok hh (.node c' a' x' b')
        ((.node c (.node c' a' x' b') x b, false) :: p)
        (fun h => RBNode.noConfusion h) (.left hanc)
    refine ⟨s', p', ?_, hne', hanc'⟩
    rw [descendLeft, if_pos hlen]
    exact he

theorem popUp_spec {α : Type} {t : RBNode α} :
    ∀ (p : List (RBNode α × Bool)) {s anc : RBNode α} {rest : List (RBNode α × Bool)},
      AncPath t p s → popUp p = (some anc, rest) → anc ≠ .nil ∧ AncPath t rest anc
  | [] => by
    intro _ he
    simp [popUp] at he
  | (q, d) :: ps => by
    intro hanc he
    cases hanc with
    | left h =>
      rw [popUp] at he
      cases he
      exact ⟨fun hn => RBNode.noConfusion hn, h⟩
    | right h =>
      rw [popUp] at he
      exact popUp_spec ps h he

theorem jsw_rbtnext_none {α : Type} {cmp : α → α → Ordering} {t : jsw_rbtree α cmp}
    {path : List (RBNode α × Bool)} {chg : Nat}
    (hnc : rbIterChanged ⟨none, path, chg⟩ t = false) :
    jsw_rbtnext t ⟨none, path, chg⟩ = .ok (none, ⟨none, path, chg⟩) := by
  rw [jsw_rbtnext, hnc]
  simp only [Bool.false_eq_true, if_false]

theorem jsw_rbtnext_node {α : Type} {cmp : α → α → Ordering} {t : jsw_rbtree α cmp}
    {c : RBColor} {a : RBNode α} {x : α} {b : RBNode α}
    {path : List (RBNode α × Bool)} {chg : Nat}
    (hnc : rbIterChanged ⟨some (.node c a x b), path, chg⟩ t = false)
    {o : Option (RBNode α)} {p' : List (RBNode α × Bool)}
    (hst : jsw_rbtnext_state (RBNode.node c a x b) path = .ok (o, p')) :
    jsw_rbtnext t ⟨some (.node c a x b), path, chg⟩ = .ok (some x, ⟨o, p', chg⟩) := by
  rw [jsw_rbtnext, hnc]
  simp only [Bool.false_eq_true, if_false]
  show (match jsw_rbtnext_state (RBNode.node c a x b) path with
    | .ok (it', path') =>
      (Except.ok (some x, ⟨it', path', chg⟩) : Except UtError (Option α × jsw_rbtrav α))
    | .error e => .error e) = Except.ok (some x, ⟨o, p', chg⟩)
  rw [hst]

theorem rbtnext_ok {α : Type} {cmp : α → α → Ordering} {t : jsw_rbtree α cmp}
    (hh : height t.root ≤ HEIGHT_LIMIT) {trav : jsw_rbtrav α} (hinv : TravInv t trav) :
    ∃ r trav', jsw_rbtnext t trav = .ok (r, trav') ∧ TravInv t trav' := by
  obtain ⟨it, path, chg⟩ := trav
  obtain ⟨hch, hit⟩ := hinv
  have hch' : chg = t.changes % UINT32_MOD := hch
  have hnc : rbIterChanged ⟨it, path, chg⟩ t = false := by
    simp [rbIterChanged, hch']
  cases it with
  | none =>
    refine ⟨none, ⟨none, path, chg⟩, jsw_rbtnext_none hnc, hch', ?_⟩
    trivial
  | some s =>
    obtain ⟨hne, hanc⟩ := hit
    cases s with
    | nil => exact absurd rfl hne
    | node c a x b =>
      cases b with
      | nil =>
        cases hpu : popUp path with
        | mk o rest =>
          have hst : jsw_rbtnext_state (RBNode.node c a x RBNode.nil) path
              = .ok (o, rest) := by
            rw [jsw_rbtnext_state, hpu]
          refine ⟨some x, ⟨o, rest, chg⟩, jsw_rbtnext_node hnc hst, hch', ?_⟩
          cases o with
          | none => trivial
          | some anc => exact popUp_spec path hanc hpu
      | node rc ra rx rb =>
        have h1 := ancPath_length hanc
        simp only [height] at h1
        have hlen : path.length < HEIGHT_LIMIT := by omega
        obtain ⟨s', p', he, hne', hanc'⟩ :=
          descendLeft_ok hh (.node rc ra rx rb)
            ((.node c a x (.node rc ra rx rb), true) :: path)
            (fun h => RBNode.noConfusion h) (.right hanc)
        have hst : jsw_rbtnext_state (RBNode.node c a x (RBNode.node rc ra rx rb)) path
            = .ok (some s', p') := by
          rw [jsw_rbtnext_state, if_pos hlen, he]
        exact ⟨some x, ⟨some s', p', chg⟩, jsw_rbtnext_node hnc hst, hch', hne', hanc'⟩

theorem rbTravSteps_ok {α : Type} {cmp : α → α → Ordering} {t : jsw_rbtree α cmp}
    (hh : height t.root ≤ HEIGHT_LIMIT) :
    ∀ (k : Nat) {trav : jsw_rbtrav α}, TravInv t trav →
      ∃ trav', rbTravSteps t k trav = .ok trav' ∧ TravInv t trav'
  | 0, trav, hinv => ⟨trav, rfl, hinv⟩
  | k + 1, trav, hinv => by
    obtain ⟨r, trav1, he, hinv1⟩ := rbtnext_ok hh hinv
    obtain ⟨trav', he', hinv'⟩ := rbTravSteps_ok hh k hinv1
    refine ⟨trav', ?_, hinv'⟩
    rw [rbTravSteps, he]
    exact he'

theorem rbtfirst_ok {α : Type} {cmp : α → α → Ordering} {t : jsw_rbtree α cmp}
    (hh : height t.root ≤ HEIGHT_LIMIT) :
    ∃ trav, jsw_rbtfirst t = .ok trav ∧ TravInv t trav := by
  unfold jsw_rbtfirst
  cases hr : t.root with
  | nil =>
    refine ⟨⟨none, [], t.changes % UINT32_MOD⟩, ?_, rfl, ?_⟩
    · rw [rbtfirst_aux]
    · trivial
  | node c a x b =>
    have hanc0 : AncPath t.root [] (RBNode.node c a x b) := hr ▸ AncPath.root
    obtain ⟨s', p', he, hne', hanc'⟩ :=
      descendLeft_ok hh (.node c a x b) [] (fun h => RBNode.noConfusion h) hanc0
    refine ⟨⟨some s', p', t.changes % UINT32_MOD⟩, ?_, rfl, hne', hanc'⟩
    rw [rbtfirst_aux, he]

theorem balanced_height_le {α : Type} {t : RBNode α} {c : RBColor} {n : Nat}
    (h : Balanced t c n) :
    height t ≤ 2 * n + (if c = RBColor.red then 1 else 0) := by
  have e0 : (if RBColor.black = RBColor.red then (1 : Nat) else 0) = 0 := rfl
  have e1 : (if RBColor.red = RBColor.red then (1 : Nat) else 0) = 1 := rfl
  have ble : ∀ cc : RBColor, (if cc = RBColor.red then (1 : Nat) else 0) ≤ 1 := by
    intro cc
    cases cc <;> simp
  induction h with
  | nil => simp [height]
  | red ha hb iha ihb =>
    rw [e0] at iha ihb
    rw [e1]
    simp only [height]
    omega
  | black ha hb iha ihb =>
    have h1 := Nat.le_trans iha (Nat.add_le_add_left (ble _) _)
    have h2 := Nat.le_trans ihb (Nat.add_le_add_left (ble _) _)
    rw [e0]
    simp only [height]
    omega

theorem balanced_size_ge {α : Type} {t : RBNode α} {c : RBColor} {n : Nat}
    (h : Balanced t c n) : 2 ^ n ≤ t.size + 1 := by
  induction h with
  | nil => simp
  | red ha hb iha ihb =>
    simp only [Batteries.RBNode.size]
    omega
  | black ha hb iha ihb =>
    simp only [Batteries.RBNode.size]
    rw [Nat.pow_succ]
    omega

theorem wf_small_height {α : Type} {cmp : α → α → Ordering} {t : jsw_rbtree α cmp}
    (hwf : TreeWF t) (hs : t.root.size ≤ 4095) : height t.root ≤ HEIGHT_LIMIT := by
  obtain ⟨ho, n, hb⟩ := hwf
  have h1 := balanced_height_le hb
  have e0 : (if RBColor.black = RBColor.red then (1 : Nat) else 0) = 0 := rfl
  rw [e0] at h1
  have h2 := balanced_size_ge hb
  have hn : n ≤ 12 := by
    by_contra hgt
    push_neg at hgt
    have h3 : (2 : Nat) ^ 13 ≤ 2 ^ n := Nat.pow_le_pow_right (by norm_num) hgt
    have h4 : (2 : Nat) ^ 13 = 8192 := by norm_num
    omega
  show height t.root ≤ 24
  omega

theorem descendLeft_err {α : Type} :
    ∀ (s : RBNode α) (p : List (RBNode α × Bool)) (e : UtError), s ≠ .nil →
      descendLeft s p = .error e → e = .capacityExceeded
  | .nil, p, e => fun h _ => absurd rfl h
  | .node c .nil x b, p, e => by
    intro _ he
    cases he
  | .node c (.node c' a' x' b') x b, p, e => by
    intro _ he
    rw [descendLeft] at he
    split at he
    · exact descendLeft_err _ _ _ (fun h => RBNode.noConfusion h) he
    · cases he
      rfl

theorem rbtfirst_err_only {α : Type} {cmp : α → α → Ordering} (t : jsw_rbtree α cmp)
    (e : UtError) (he : jsw_rbtfirst t = .error e) : e = .capacityExceeded := by
  unfold jsw_rbtfirst at he
  cases hr : t.root with
  | nil =>
    rw [hr, rbtfirst_aux] at he
    cases he
  | node c a x b =>
    rw [hr, rbtfirst_aux] at he
    split at he
    · cases he
    · cases he
      exact descendLeft_err _ _ _ (fun h => RBNode.noConfusion h) ‹_›

/-- C3 (amended): The path-stack bound is guaranteed by tree height, not by the ~16M
node count the spec states: for every well-formed tree of at most 4095 nodes (so its
height is at most `HEIGHT_LIMIT = 24`), cursor creation succeeds and every number of
subsequent advances succeeds, so the fatal `CapacityExceeded` depth failure is
unreachable under that bound; and whenever cursor creation does fail, the failure is
exactly `CapacityExceeded` (the failing operation returns only the error, with no
partial cursor state). -/
theorem cursor_depth_safe (α : Type) (cmp : α → α → Ordering) (t : jsw_rbtree α cmp)
    (hwf : TreeWF t) (hs : t.root.size ≤ 4095) :
    (∃ trav, jsw_rbtfirst t = .ok trav
      ∧ ∀ k : Nat, ∃ trav', rbTravSteps t k trav = .ok trav')
    ∧ (∀ (t2 : jsw_rbtree α cmp) (e : UtError),
        jsw_rbtfirst t2 = .error e → e = .capacityExceeded) := by
  have hh := wf_small_height hwf hs
  obtain ⟨trav, he, hinv⟩ := rbtfirst_ok hh
  exact ⟨⟨trav, he, fun k => ((rbTravSteps_ok hh k hinv).imp fun _ h => h.1)⟩,
    rbtfirst_err_only⟩

/-- Witness for the amended C3 at a concrete one-node tree. -/
theorem cursor_depth_safe_witness :
    (∃ trav, jsw_rbtfirst (⟨.node .black .nil 1 .nil, 1, 0, true⟩ : jsw_rbtree Nat compare)
        = .ok trav
      ∧ ∀ k : Nat, ∃ trav',
          rbTravSteps (⟨.node .black .nil 1 .nil, 1, 0, true⟩ : jsw_rbtree Nat compare) k trav
            = .ok trav')
    ∧ (∀ (t2 : jsw_rbtree Nat compare) (e : UtError),
        jsw_rbtfirst t2 = .error e → e = .capacityExceeded) :=
  cursor_depth_safe Nat compare ⟨.node .black .nil 1 .nil, 1, 0, true⟩
    ⟨⟨trivial, trivial, trivial, trivial⟩, 1, .black .nil .nil⟩ (by decide)

theorem rbAll_imp {α : Type} {p q : α → Prop} (H : ∀ x, p x → q x) :
    ∀ {t : RBNode α}, t.All p → t.All q
  | .nil, _ => trivial
  | .node _ _ _ _, ⟨hx, ha, hb⟩ => ⟨H _ hx, rbAll_imp H ha, rbAll_imp H hb⟩

theorem fullTree_balanced : ∀ (k lo : Nat), Balanced (fullTree k lo) .black k
  | 0, _ => .nil
  | k + 1, lo => .black (fullTree_balanced k lo) (fullTree_balanced k (lo + 2 ^ k))

theorem fullTree_size : ∀ (k lo : Nat), (fullTree k lo).size = 2 ^ k - 1
  | 0, _ => rfl
  | k + 1, lo => by
    have h0 : 0 < (2 : Nat) ^ k := Nat.two_pow_pos k
    have hp : (2 : Nat) ^ (k + 1) = 2 ^ k * 2 := Nat.pow_succ ..
    simp only [fullTree, Batteries.RBNode.size, fullTree_size k]
    omega

theorem fullTree_bounds : ∀ (k lo : Nat),
    (fullTree k lo).All (fun z => lo ≤ z ∧ z < lo + (2 ^ k - 1))
  | 0, _ => trivial
  | k + 1, lo => by
    have h0 : 0 < (2 : Nat) ^ k := Nat.two_pow_pos k
    have hp : (2 : Nat) ^ (k + 1) = 2 ^ k * 2 := Nat.pow_succ ..
    refine ⟨⟨Nat.le_add_right _ _, by omega⟩, rbAll_imp ?_ (fullTree_bounds k lo),
      rbAll_imp ?_ (fullTree_bounds k (lo + 2 ^ k))⟩
    · intro z hz
      obtain ⟨h1, h2⟩ := hz
      exact ⟨h1, by omega⟩
    · intro z hz
      obtain ⟨h1, h2⟩ := hz
      exact ⟨by omega, by omega⟩

theorem fullTree_ordered : ∀ (k lo : Nat), Ordered compare (fullTree k lo)
  | 0, _ => trivial
  | k + 1, lo => by
    have h0 : 0 < (2 : Nat) ^ k := Nat.two_pow_pos k
    refine ⟨rbAll_imp ?_ (fullTree_bounds k lo), rbAll_imp ?_ (fullTree_bounds k (lo + 2 ^ k)),
      fullTree_ordered k lo, fullTree_ordered k (lo + 2 ^ k)⟩
    · intro z hz
      obtain ⟨h1, h2⟩ := hz
      exact Batteries.RBNode.cmpLT_iff.2 (Nat.compare_eq_lt.2 (by omega))
    · intro z hz
      obtain ⟨h1, h2⟩ := hz
      exact Batteries.RBNode.cmpLT_iff.2 (Nat.compare_eq_lt.2 (by omega))

theorem spineTree_balanced : ∀ (k lo : Nat), Balanced (spineTree k lo) .black k
  | 0, _ => .nil
  | k + 1, lo =>
    .black
      (.red (spineTree_balanced k lo) (fullTree_balanced k (lo + (2 ^ (k + 1) - 1))))
      (fullTree_balanced k (lo + (2 ^ (k + 1) - 2) + 2 ^ k + 1))

theorem spineTree_size : ∀ (k lo : Nat), (spineTree k lo).size = 2 ^ (k + 1) - 2
  | 0, _ => rfl
  | k + 1, lo => by
    have h0 : 0 < (2 : Nat) ^ k := Nat.two_pow_pos k
    have hp1 : (2 : Nat) ^ (k + 1) = 2 ^ k * 2 := Nat.pow_succ ..
    have hp2 : (2 : Nat) ^ (k + 2) = 2 ^ (k + 1) * 2 := Nat.pow_succ ..
    simp only [spineTree, Batteries.RBNode.size, spineTree_size k, fullTree_size k]
    omega

theorem spineTree_bounds : ∀ (k lo : Nat),
    (spineTree k lo).All (fun z => lo ≤ z ∧ z < lo + (2 ^ (k + 1) - 2))
  | 0, _ => trivial
  | k + 1, lo => by
    have h0 : 0 < (2 : Nat) ^ k := Nat.two_pow_pos k
    have hp1 : (2 : Nat) ^ (k + 1) = 2 ^ k * 2 := Nat.pow_succ ..
    have hp2 : (2 : Nat) ^ (k + 2) = 2 ^ (k + 1) * 2 := Nat.pow_succ ..
    refine ⟨⟨by omega, by omega⟩,
      ⟨⟨by omega, by omega⟩, rbAll_imp ?_ (spineTree_bounds k lo),
        rbAll_imp ?_ (fullTree_bounds k (lo + (2 ^ (k + 1) - 1)))⟩,
      rbAll_imp ?_ (fullTree_bounds k (lo + (2 ^ (k + 1) - 2) + 2 ^ k + 1))⟩
    · intro z hz
      obtain ⟨h1, h2⟩ := hz
      exact ⟨h1, by omega⟩
    · intro z hz
      obtain ⟨h1, h2⟩ := hz
      exact ⟨by omega, by omega⟩
    · intro z hz
      obtain ⟨h1, h2⟩ := hz
      exact ⟨by omega, by omega⟩

theorem spineTree_ordered : ∀ (k lo : Nat), Ordered compare (spineTree k lo)
  | 0, _ => trivial
  | k + 1, lo => by
    have h0 : 0 < (2 : Nat) ^ k := Nat.two_pow_pos k
    have hp1 : (2 : Nat) ^ (k + 1) = 2 ^ k * 2 := Nat.pow_succ ..
    have hlt : ∀ u v : Nat, u < v → cmpLT compare u v := fun u v h =>
      Batteries.RBNode.cmpLT_iff.2 (Nat.compare_eq_lt.2 h)
    refine ⟨⟨hlt _ _ (by omega),
        rbAll_imp ?_ (spineTree_bounds k lo),
        rbAll_imp ?_ (fullTree_bounds k (lo + (2 ^ (k + 1) - 1)))⟩,
      rbAll_imp ?_ (fullTree_bounds k (lo + (2 ^ (k + 1) - 2) + 2 ^ k + 1)),
      ⟨rbAll_imp ?_ (spineTree_bounds k lo),
        rbAll_imp ?_ (fullTree_bounds k (lo + (2 ^ (k + 1) - 1))),
        spineTree_ordered k lo,
        fullTree_ordered k (lo + (2 ^ (k + 1) - 1))⟩,
      fullTree_ordered k (lo + (2 ^ (k + 1) - 2) + 2 ^ k + 1)⟩
    · intro z hz
      obtain ⟨h1, h2⟩ := hz
      exact hlt _ _ (by omega)
    · intro z hz
      obtain ⟨h1, h2⟩ := hz
      exact hlt _ _ (by omega)
    · intro z hz
      obtain ⟨h1, h2⟩ := hz
      exact hlt _ _ (by omega)
    · intro z hz
      obtain ⟨h1, h2⟩ := hz
      exact hlt _ _ (by omega)
    · intro z hz
      obtain ⟨h1, h2⟩ := hz
      exact hlt _ _ (by omega)

theorem spine_fail : ∀ (k lo : Nat) (p : List (RBNode Nat × Bool)),
    HEIGHT_LIMIT < p.length + (2 * (k + 1) - 1) →
    descendLeft (spineTree (k + 1) lo) p = .error .capacityExceeded
  | 0, lo, p => by
    intro hlen
    rw [spineTree, descendLeft]
    rw [if_neg (by simp only [HEIGHT_LIMIT] at hlen ⊢; omega)]
  | k + 1, lo, p => by
    intro hlen
    rw [spineTree, descendLeft]
    split
    · rw [spineTree, descendLeft]
      split
      · exact spine_fail k lo _ (by simp only [List.length_cons]; omega)
      · rfl
    · rfl

theorem rbtfirst_aux_err {α : Type} (snap : Nat) (c : RBColor) (a : RBNode α) (x : α)
    (b : RBNode α) (e : UtError) (hd : descendLeft (RBNode.node c a x b) [] = .error e) :
    rbtfirst_aux snap (RBNode.node c a x b) = .error e := by
  rw [rbtfirst_aux, hd]

/-- C3 counterexample: `cexTree` satisfies all four red-black invariants and holds
16382 nodes — far below the ~16M the claim allows — yet creating a traversal cursor
already pushes the path stack past `HEIGHT_LIMIT` and fails `CapacityExceeded`.  The
node-count precondition of the claim therefore does not make the depth failure
unreachable. -/
theorem cursor_depth_claim_counterexample :
    rbInvariants cexTree
    ∧ TreeWF cexTree
    ∧ cexTree.root.size = 16382
    ∧ cexTree.root.size ≤ 16777216
    ∧ cexTree.cnt = cexTree.root.size
    ∧ jsw_rbtfirst cexTree = .error .capacityExceeded := by
  have hbal : Balanced cexTree.root .black 13 := spineTree_balanced 13 0
  have hord : Ordered compare cexTree.root := spineTree_ordered 13 0
  have hwf : TreeWF cexTree := ⟨hord, 13, hbal⟩
  have hsize : cexTree.root.size = 16382 := by
    show (spineTree 13 0).size = 16382
    rw [spineTree_size 13 0]
    norm_num
  have hd : descendLeft cexTree.root [] = .error .capacityExceeded :=
    spine_fail 12 0 [] (by decide)
  refine ⟨hwf.rbInvariants, hwf, hsize, by omega, hsize.symm, ?_⟩
  cases hroot : cexTree.root with
  | nil =>
    have : (spineTree (12 + 1) 0 : RBNode Nat) = .nil := hroot
    rw [spineTree] at this
    cases this
  | node c a x b =>
    unfold jsw_rbtfirst
    rw [hroot]
    refine rbtfirst_aux_err _ c a x b _ ?_
    rw [← hroot]
    exact hd
